import Mathlib

/-!
Verification development for the newsIR repository: a semantic news search
system (ingestion pipeline, similarity query service, tag aggregation
service) with a Next.js frontend. The repository snapshot contains the
frontend sources and deployment configuration; the backend services are
specified in the design document, so the backend operations below are
modelled from that specification, while the frontend data shapes and the
InputTags component are embedded from the TypeScript sources.
-/

namespace NewsIR

/-- Location enumeration, embedded from the frontend union type in
src/frontend/src/app/page.tsx line 83: the closed set of article locations. -/
inductive Location where
  | Singapore
  | Malaysia
  | Indonesia
deriving DecidableEq

/-- Article shape served to the frontend, embedded from the type in
src/frontend/src/app/page.tsx lines 85 to 93. Calendar dates are modelled as
integer day numbers so that inclusive ranges and day windows are arithmetic. -/
structure Article where
  url : String
  title : String
  content : String
  language : String
  location : Location
  site : String
  date : Int
deriving DecidableEq

/-- TagCount pair, embedded from the type in src/frontend/src/app/page.tsx
lines 101 to 104: an aggregation result, not a stored entity. -/
structure TagCount where
  tag : String
  count : Nat
deriving DecidableEq

/-- Modelled from the spec: the Document record of section 3 (the backend
that owns it is not under src/). One record per article, keyed by url,
carrying the embedding vector and the extracted event tags. The embedding is
a list of integers and similarity is the dot product, a representative of
the fixed metric the spec leaves to the implementer. -/
structure Document where
  url : String
  title : String
  content : String
  language : String
  location : Location
  site : String
  date : Int
  embedding : List Int
  tags : List String
deriving DecidableEq

/-- Modelled from the spec: the raw article handed to ingestion (section 4.1
input), with an unvalidated location string and the parse result of the raw
date, where none records an unparsable date. -/
structure RawArticle where
  url : String
  title : String
  content : String
  language : String
  location : String
  site : String
  date : Option Int
deriving DecidableEq

/-- Modelled from the spec: the immutable configuration structure of section
9: embedding dimensionality D and the symmetric date window half-width N. -/
structure Config where
  dim : Nat
  window : Nat
deriving DecidableEq

/-- Modelled from the spec: validation of the closed location enumeration
(section 3): exactly Singapore, Malaysia and Indonesia are accepted. -/
def parseLocation (s : String) : Option Location :=
  if s = "Singapore" then some Location.Singapore
  else if s = "Malaysia" then some Location.Malaysia
  else if s = "Indonesia" then some Location.Indonesia
  else none

/-- Filter dimension of a similarity query, embedded from the filters list in
src/frontend/src/app/page.tsx lines 72 to 81: exactly site and date. -/
inductive FilterKind where
  | site
  | date
deriving DecidableEq

/-- Modelled from the spec: the ingestion failure taxonomy of section 7
restricted to the fatal ingestion errors (steps 1 and 2 of section 4.1). -/
inductive IngestError where
  | validation
  | embeddingService
deriving DecidableEq

/-- Modelled from the spec: the query failure taxonomy of section 7
restricted to the two query operations. -/
inductive QueryError where
  | notFound
  | validation
deriving DecidableEq

/-- View of a Document as the Article payload served to the frontend: the
seven public fields and nothing else, in particular no embedding. -/
def toView (d : Document) : Article :=
  ⟨d.url, d.title, d.content, d.language, d.location, d.site, d.date⟩

/-- Modelled from the spec: idempotent upsert keyed by url (section 4.1 step
4): the new record replaces every record carrying the same url. -/
def upsert (store : List Document) (d : Document) : List Document :=
  d :: store.filter (fun e => e.url ≠ d.url)

/-- Modelled from the spec: the outcome of a successful ingestion: the
updated store, the persisted Document and whether a tagging warning was
recorded (the degraded path of section 4.1 step 3). -/
structure IngestOk where
  store : List Document
  doc : Document
  taggingWarning : Bool
deriving DecidableEq

/-- Modelled from the spec: the ingestion pipeline of section 4.1. The two
external services are modelled by their responses: embedResp is the embedding
client outcome (none for timeout or unreachable) and tagResp the tagger
outcome (none for failure). Step 1 validates date and location, step 2
demands a D-dimensional vector, step 3 degrades to empty tags with a
warning, step 4 upserts keyed by url. -/
def ingest (cfg : Config) (store : List Document) (a : RawArticle)
    (embedResp : Option (List Int)) (tagResp : Option (List String)) :
    Except IngestError IngestOk :=
  match a.date with
  | none => Except.error IngestError.validation
  | some dt =>
    match parseLocation a.location with
    | none => Except.error IngestError.validation
    | some loc =>
      match embedResp with
      | none => Except.error IngestError.embeddingService
      | some v =>
        if v.length = cfg.dim then
          match tagResp with
          | none =>
            let d : Document :=
              ⟨a.url, a.title, a.content, a.language, loc, a.site, dt, v, []⟩
            Except.ok ⟨upsert store d, d, true⟩
          | some ts =>
            let d : Document :=
              ⟨a.url, a.title, a.content, a.language, loc, a.site, dt, v, ts.dedup⟩
            Except.ok ⟨upsert store d, d, false⟩
        else Except.error IngestError.embeddingService

/-- Dot product of two embedding vectors, the similarity metric. -/
def dot (a b : List Int) : Int := (List.zipWith (· * ·) a b).sum

/-- Similarity of a candidate to the seed. -/
def sim (seed d : Document) : Int := dot seed.embedding d.embedding

/-- Lexicographic comparison of character lists, the lexical order on
strings used by the deterministic tie-breaks. -/
def charListLe : List Char → List Char → Bool
  | [], _ => true
  | _ :: _, [] => false
  | a :: as, b :: bs =>
    if a < b then true else if b < a then false else charListLe as bs

/-- Lexical order on strings via their character data. -/
def strLe (a b : String) : Bool := charListLe a.data b.data

/-- Modelled from the spec: the ranking order of section 4.2: descending
similarity to the seed, ties broken by descending date, then by url lexical
order. -/
def candLe (seed : Document) (d1 d2 : Document) : Prop :=
  sim seed d2 < sim seed d1 ∨
    (sim seed d1 = sim seed d2 ∧
      (d2.date < d1.date ∨ (d1.date = d2.date ∧ strLe d1.url d2.url = true)))

instance candLe.decRel (seed : Document) : DecidableRel (candLe seed) :=
  fun d1 d2 => by unfold candLe; infer_instance

/-- Modelled from the spec: the single filter dimension of section 4.2: under
site, the candidate site must equal the supplied site value or by default the
seed site; under date, the candidate date must lie within the symmetric
window around the seed date. -/
def passesFilter (cfg : Config) (seed : Document) (fk : FilterKind)
    (siteValue : Option String) (d : Document) : Bool :=
  match fk with
  | FilterKind.site => d.site = siteValue.getD seed.site
  | FilterKind.date =>
      decide (seed.date - (cfg.window : Int) ≤ d.date) &&
      decide (d.date ≤ seed.date + (cfg.window : Int))

/-- Modelled from the spec: the filtered and ranked candidate list of section
4.2: every stored Document other than the seed that carries a valid
D-dimensional embedding and passes the selected filter, sorted by the
deterministic ranking order. -/
def rankedCandidates (cfg : Config) (store : List Document) (seed : Document)
    (fk : FilterKind) (siteValue : Option String) : List Document :=
  List.insertionSort (candLe seed)
    (store.filter (fun d =>
      (d.url ≠ seed.url : Bool) && (d.embedding.length = cfg.dim : Bool) &&
        passesFilter cfg seed fk siteValue d))

/-- Lookup of the Document indexed under a url. -/
def findDoc (store : List Document) (url : String) : Option Document :=
  store.find? (fun d => d.url = url)

/-- Modelled from the spec: the similarity query of section 4.2 at the
Document level: resolve the seed url, fail with NotFoundError when it is not
indexed, otherwise the top-K ranked candidates. -/
def similarDocs (cfg : Config) (store : List Document) (seedUrl : String)
    (fk : FilterKind) (siteValue : Option String) (topK : Nat) :
    Except QueryError (List Document) :=
  match findDoc store seedUrl with
  | none => Except.error QueryError.notFound
  | some seed => Except.ok ((rankedCandidates cfg store seed fk siteValue).take topK)

/-- Modelled from the spec: the public similar operation of section 6: the
ranked Documents projected to the Article payload, with no embedding in the
response. -/
def similar (cfg : Config) (store : List Document) (seedUrl : String)
    (fk : FilterKind) (siteValue : Option String) (topK : Nat) :
    Except QueryError (List Article) :=
  match similarDocs cfg store seedUrl fk siteValue topK with
  | Except.error e => Except.error e
  | Except.ok docs => Except.ok (docs.map toView)

/-- Documents whose date lies in the inclusive range. -/
def docsInRange (store : List Document) (startDate endDate : Int) : List Document :=
  store.filter (fun d => decide (startDate ≤ d.date) && decide (d.date ≤ endDate))

/-- Modelled from the spec: the explosion step of section 4.3: each Document
contributes one occurrence per distinct tag it carries. -/
def tagOccurrences (docs : List Document) : List String :=
  docs.flatMap (fun d => d.tags.dedup)

/-- Modelled from the spec: the aggregation order of section 4.3: descending
count, ties broken by lexical order of the tag string. -/
def tagRel (a b : TagCount) : Prop :=
  b.count < a.count ∨ (a.count = b.count ∧ strLe a.tag b.tag = true)

instance tagRel.decRel : DecidableRel tagRel :=
  fun a b => by unfold tagRel; infer_instance

/-- Modelled from the spec: the tag aggregation service of section 4.3:
validate the inclusive bounds and the positive top-N, explode the tag sets of
the Documents in range, count occurrences per tag, sort by the aggregation
order and truncate to top-N. -/
def topTags (store : List Document) (startDate endDate : Int) (topN : Int) :
    Except QueryError (List TagCount) :=
  if startDate > endDate ∨ topN ≤ 0 then Except.error QueryError.validation
  else
    let occ := tagOccurrences (docsInRange store startDate endDate)
    let entries := occ.dedup.map (fun t => TagCount.mk t (occ.count t))
    Except.ok ((List.insertionSort tagRel entries).take topN.toNat)

/-- Character test matching the whitespace trimmed by the frontend runtime
trim call. -/
def isSpaceChar (c : Char) : Bool :=
  (c = ' ' : Bool) || (c = '\t' : Bool) || (c = '\n' : Bool) || (c = '\r' : Bool)

/-- Trim of leading and trailing whitespace on the character data, embedding
the trim call of src/frontend/src/components/ui/input-tags.tsx line 26. -/
def trimStr (s : String) : String :=
  String.mk (((s.data.dropWhile isSpaceChar).reverse.dropWhile isSpaceChar).reverse)

/-- Split of the character data at commas, embedding the split call of
src/frontend/src/components/ui/input-tags.tsx line 26: empty chunks are
kept, and the empty string yields one empty chunk. -/
def splitCommaAux : List Char → List Char → List (List Char)
  | [], acc => [acc.reverse]
  | c :: cs, acc =>
    if c = ',' then acc.reverse :: splitCommaAux cs [] else splitCommaAux cs (c :: acc)

/-- Split of a string on commas. -/
def splitComma (s : String) : List String :=
  (splitCommaAux s.data []).map String.mk

/-- Comma test on the character data, embedding the includes call of
src/frontend/src/components/ui/input-tags.tsx line 23. -/
def containsComma (s : String) : Bool := s.data.contains ','

/-- First-occurrence deduplication with an accumulator of already seen
elements: the order-preserving semantics of building a runtime Set from a
list and converting it back to an array, as done in
src/frontend/src/components/ui/input-tags.tsx lines 24 to 28 and 35 to 36. -/
def firstDedupAux (seen : List String) : List String → List String
  | [] => []
  | x :: xs =>
    if x ∈ seen then firstDedupAux seen xs
    else x :: firstDedupAux (x :: seen) xs

/-- First-occurrence deduplication of a list of strings. -/
def firstDedup (l : List String) : List String := firstDedupAux [] l

/-- Embedded from the effect hook of src/frontend/src/components/ui/input-tags.tsx
lines 22 to 31: when the pending input contains a comma, the tag list becomes
the deduplicated concatenation of the existing tags with the trimmed comma
chunks of the pending input, and the pending input is cleared; otherwise
nothing changes. The pair is the new tag list with the new pending input. -/
def commaUpdate (value : List String) (pending : String) : List String × String :=
  if containsComma pending then
    (firstDedup (value ++ (splitComma pending).map trimStr), "")
  else (value, pending)

/-- Embedded from addPendingDataPoint of
src/frontend/src/components/ui/input-tags.tsx lines 33 to 39: on an explicit
add, a nonempty pending input is appended, the list deduplicated keeping
first occurrences, and the pending input cleared. -/
def addPendingDataPoint (value : List String) (pending : String) : List String × String :=
  if pending ≠ "" then (firstDedup (value ++ [pending]), "")
  else (value, pending)

/-- Example configuration: two-dimensional embeddings, a three-day window. -/
def cfgEx : Config := ⟨2, 3⟩

/-- Example Document a1. -/
def dA : Document :=
  ⟨"a1", "t1", "c1", "en", Location.Singapore, "straitstimes", 10, [1, 0], ["flooding"]⟩

/-- Example Document a2. -/
def dB : Document :=
  ⟨"a2", "t2", "c2", "en", Location.Singapore, "straitstimes", 11, [1, 1], ["flooding", "haze"]⟩

/-- Example Document a3. -/
def dC : Document :=
  ⟨"a3", "t3", "c3", "ms", Location.Malaysia, "nst", 12, [0, 1], ["election"]⟩

/-- Example store holding the three example Documents. -/
def storeEx : List Document := [dA, dB, dC]

/-- Example raw article matching dA. -/
def artEx : RawArticle :=
  ⟨"a1", "t1", "c1", "en", "Singapore", "straitstimes", some 10⟩

/-- Document assembled by a successful ingestion of a raw article given the
two service responses: the validated fields, the returned vector and the
deduplicated tag set, with empty tags when the tagger failed. -/
def assembledDoc (a : RawArticle) (e : Option (List Int)) (t : Option (List String)) :
    Document :=
  ⟨a.url, a.title, a.content, a.language,
    (parseLocation a.location).getD Location.Singapore, a.site,
    a.date.getD 0, e.getD [], (t.getD []).dedup⟩

/-- Document assembled on the degraded path where the tagger failed: the
validated fields, the returned vector and an empty tag set. -/
def degradedDoc (a : RawArticle) (dt : Int) (loc : Location) (v : List Int) : Document :=
  ⟨a.url, a.title, a.content, a.language, loc, a.site, dt, v, []⟩

/-- Expected aggregation result over the example store for the whole range. -/
def rEx : List TagCount :=
  [TagCount.mk "flooding" 2, TagCount.mk "election" 1, TagCount.mk "haze" 1]

/-- Expected outcome of ingesting the example article into an empty store. -/
def outEx : IngestOk := ⟨[dA], dA, false⟩

end NewsIR

namespace NewsIR

/-- The lexical order on character lists is total. -/
theorem charListLe_total : ∀ x y : List Char, charListLe x y = true ∨ charListLe y x = true := by
  intro x
  induction x with
  | nil => intro y; left; cases y <;> rfl
  | cons a as ih =>
    intro y
    cases y with
    | nil => right; rfl
    | cons b bs =>
      by_cases hab : a < b
      · left; simp [charListLe, hab]
      · by_cases hba : b < a
        · right; simp [charListLe, hba]
        · rcases ih bs with h | h
          · left; simp [charListLe, hab, hba, h]
          · right; simp [charListLe, hab, hba, h]

/-- The lexical order on character lists is transitive. -/
theorem charListLe_trans :
    ∀ x y z : List Char, charListLe x y = true → charListLe y z = true →
      charListLe x z = true := by
  intro x
  induction x with
  | nil => intro y z _ _; cases z <;> rfl
  | cons a as ih =>
    intro y z hxy hyz
    cases y with
    | nil => simp [charListLe] at hxy
    | cons b bs =>
      cases z with
      | nil => simp [charListLe] at hyz
      | cons c cs =>
        by_cases hab : a < b
        · by_cases hbc : b < c
          · simp [charListLe, lt_trans hab hbc]
          · by_cases hcb : c < b
            · simp [charListLe, hbc, hcb] at hyz
            · have hbc' : b = c := le_antisymm (not_lt.mp hcb) (not_lt.mp hbc)
              subst hbc'
              simp [charListLe, hab]
        · by_cases hba : b < a
          · simp [charListLe, hab, hba] at hxy
          · have hab' : a = b := le_antisymm (not_lt.mp hba) (not_lt.mp hab)
            subst hab'
            simp only [charListLe, lt_irrefl, if_false] at hxy
            by_cases hac : a < c
            · simp [charListLe, hac]
            · by_cases hca : c < a
              · simp [charListLe, hac, hca] at hyz
              · have hac' : a = c := le_antisymm (not_lt.mp hca) (not_lt.mp hac)
                subst hac'
                simp only [charListLe, lt_irrefl, if_false] at hyz ⊢
                exact ih bs cs hxy hyz

instance tagRel.isTotal : IsTotal TagCount tagRel := ⟨by
  intro a b
  rcases Nat.lt_trichotomy a.count b.count with h | h | h
  · right; exact Or.inl h
  · rcases charListLe_total a.tag.data b.tag.data with hs | hs
    · left; exact Or.inr ⟨h, hs⟩
    · right; exact Or.inr ⟨h.symm, hs⟩
  · left; exact Or.inl h⟩

instance tagRel.isTrans : IsTrans TagCount tagRel := ⟨by
  intro a b c hab hbc
  rcases hab with h1 | ⟨h1, h1s⟩ <;> rcases hbc with h2 | ⟨h2, h2s⟩
  · exact Or.inl (by omega)
  · exact Or.inl (by omega)
  · exact Or.inl (by omega)
  · exact Or.inr ⟨by omega, charListLe_trans _ _ _ h1s h2s⟩⟩

instance candLe.isTotal (seed : Document) : IsTotal Document (candLe seed) := ⟨by
  intro d1 d2
  rcases lt_trichotomy (sim seed d1) (sim seed d2) with h | h | h
  · right; exact Or.inl h
  · rcases lt_trichotomy d1.date d2.date with hd | hd | hd
    · right; exact Or.inr ⟨h.symm, Or.inl hd⟩
    · rcases charListLe_total d1.url.data d2.url.data with hs | hs
      · left; exact Or.inr ⟨h, Or.inr ⟨hd, hs⟩⟩
      · right; exact Or.inr ⟨h.symm, Or.inr ⟨hd.symm, hs⟩⟩
    · left; exact Or.inr ⟨h, Or.inl hd⟩
  · left; exact Or.inl h⟩

instance candLe.isTrans (seed : Document) : IsTrans Document (candLe seed) := ⟨by
  intro a b c hab hbc
  rcases hab with h1 | ⟨h1, hd1⟩ <;> rcases hbc with h2 | ⟨h2, hd2⟩
  · exact Or.inl (by omega)
  · exact Or.inl (by omega)
  · exact Or.inl (by omega)
  · refine Or.inr ⟨by omega, ?_⟩
    rcases hd1 with hx | ⟨hx, hxs⟩ <;> rcases hd2 with hy | ⟨hy, hys⟩
    · exact Or.inl (by omega)
    · exact Or.inl (by omega)
    · exact Or.inl (by omega)
    · exact Or.inr ⟨by omega, charListLe_trans _ _ _ hxs hys⟩⟩

/-- Elements produced by the deduplication accumulator avoid the seen list. -/
theorem firstDedupAux_not_seen (l : List String) :
    ∀ seen, ∀ x ∈ firstDedupAux seen l, x ∉ seen := by
  induction l with
  | nil => intro seen x hx; simp [firstDedupAux] at hx
  | cons a as ih =>
    intro seen x hx
    simp only [firstDedupAux] at hx
    by_cases ha : a ∈ seen
    · rw [if_pos ha] at hx
      exact ih seen x hx
    · rw [if_neg ha] at hx
      rcases List.mem_cons.mp hx with rfl | hx2
      · exact ha
      · intro hxseen
        exact ih (a :: seen) x hx2 (List.mem_cons_of_mem a hxseen)

/-- The deduplication accumulator yields a list without duplicates. -/
theorem firstDedupAux_nodup (l : List String) :
    ∀ seen, (firstDedupAux seen l).Nodup := by
  induction l with
  | nil => intro seen; simp [firstDedupAux]
  | cons a as ih =>
    intro seen
    simp only [firstDedupAux]
    by_cases ha : a ∈ seen
    · rw [if_pos ha]; exact ih seen
    · rw [if_neg ha]
      refine List.nodup_cons.mpr ⟨?_, ih (a :: seen)⟩
      intro hmem
      exact firstDedupAux_not_seen as (a :: seen) a hmem (List.mem_cons_self a seen)

/-- The deduplication accumulator on a concatenation extends the result of
the left part: earlier elements keep their position. -/
theorem firstDedupAux_append (l1 : List String) :
    ∀ seen l2, ∃ rest,
      firstDedupAux seen (l1 ++ l2) = firstDedupAux seen l1 ++ rest := by
  induction l1 with
  | nil => intro seen l2; exact ⟨firstDedupAux seen l2, rfl⟩
  | cons a as ih =>
    intro seen l2
    by_cases ha : a ∈ seen
    · obtain ⟨rest, hrest⟩ := ih seen l2
      refine ⟨rest, ?_⟩
      show firstDedupAux seen (a :: (as ++ l2)) = firstDedupAux seen (a :: as) ++ rest
      simp only [firstDedupAux, if_pos ha]
      exact hrest
    · obtain ⟨rest, hrest⟩ := ih (a :: seen) l2
      refine ⟨rest, ?_⟩
      show firstDedupAux seen (a :: (as ++ l2)) = firstDedupAux seen (a :: as) ++ rest
      simp only [firstDedupAux, if_neg ha]
      rw [hrest, List.cons_append]

/-- The deduplication accumulator keeps a duplicate-free list untouched. -/
theorem firstDedupAux_eq_self (l : List String) :
    ∀ seen, l.Nodup → (∀ x ∈ l, x ∉ seen) → firstDedupAux seen l = l := by
  induction l with
  | nil => intro seen _ _; rfl
  | cons a as ih =>
    intro seen hnd hdis
    simp only [firstDedupAux]
    rw [if_neg (hdis a (List.mem_cons_self a as))]
    congr 1
    refine ih (a :: seen) (List.nodup_cons.mp hnd).2 ?_
    intro x hx hxs
    rcases List.mem_cons.mp hxs with rfl | hxs2
    · exact (List.nodup_cons.mp hnd).1 hx
    · exact hdis x (List.mem_cons_of_mem a hx) hxs2

/-- First-occurrence deduplication yields a duplicate-free list. -/
theorem firstDedup_nodup (l : List String) : (firstDedup l).Nodup :=
  firstDedupAux_nodup l []

/-- First-occurrence deduplication of a concatenation begins with the
deduplication of the left part. -/
theorem firstDedup_append (l1 l2 : List String) :
    ∃ rest, firstDedup (l1 ++ l2) = firstDedup l1 ++ rest :=
  firstDedupAux_append l1 [] l2

/-- First-occurrence deduplication keeps a duplicate-free list unchanged. -/
theorem firstDedup_eq_self {l : List String} (h : l.Nodup) : firstDedup l = l :=
  firstDedupAux_eq_self l [] h (by simp)

end NewsIR

namespace NewsIR

/-- Tag occurrence counts agree with the number of Documents carrying the
tag: the per-Document deduplication makes each Document contribute at most
once per distinct tag. -/
theorem count_tagOccurrences (docs : List Document) (t : String) :
    (tagOccurrences docs).count t =
      (docs.filter (fun d => decide (t ∈ d.tags))).length := by
  induction docs with
  | nil => rfl
  | cons d ds ih =>
    simp only [tagOccurrences, List.flatMap_cons, List.count_append, List.filter_cons] at ih ⊢
    by_cases h : t ∈ d.tags
    · rw [List.count_eq_one_of_mem (List.nodup_dedup d.tags) (List.mem_dedup.mpr h)]
      rw [if_pos (by simpa using h)]
      rw [ih, List.length_cons]
      omega
    · rw [List.count_eq_zero.mpr (fun hc => h (List.mem_dedup.mp hc))]
      rw [if_neg (by simpa using h)]
      rw [ih]
      omega

/-- Looking up the upserted url finds exactly the upserted Document. -/
theorem findDoc_upsert (store : List Document) (d : Document) :
    findDoc (upsert store d) d.url = some d := by
  simp only [findDoc, upsert, List.find?_cons_of_pos, decide_eq_true_eq]

/-- After an upsert, exactly one stored Document carries the upserted url. -/
theorem upsert_url_count (store : List Document) (d : Document) :
    ((upsert store d).map Document.url).count d.url = 1 := by
  simp only [upsert, List.map_cons, List.count_cons_self]
  have hz : ((store.filter (fun e => decide (e.url ≠ d.url))).map Document.url).count d.url = 0 := by
    rw [List.count_eq_zero]
    intro hmem
    simp only [List.mem_map, List.mem_filter, decide_eq_true_eq] at hmem
    obtain ⟨e, ⟨_, hne⟩, heq⟩ := hmem
    exact hne heq
  omega

/-- Upserting keeps every stored Document whose url differs. -/
theorem mem_upsert_of_ne (store : List Document) (d x : Document)
    (hx : x ∈ store) (hne : x.url ≠ d.url) : x ∈ upsert store d := by
  simp only [upsert, List.mem_cons, List.mem_filter, decide_eq_true_eq]
  exact Or.inr ⟨hx, hne⟩

/-- Shape of every successful ingestion: the validated inputs exist, the
assembled Document carries the returned embedding of dimensionality D and
the deduplicated tags, the warning flag records a tagger failure, and the
store is the upsert of the assembled Document. -/
theorem ingest_ok_shape (cfg : Config) (store : List Document) (a : RawArticle)
    (e : Option (List Int)) (t : Option (List String)) (out : IngestOk)
    (h : ingest cfg store a e t = Except.ok out) :
    a.date = some out.doc.date ∧ parseLocation a.location = some out.doc.location ∧
    e = some out.doc.embedding ∧ out.doc.embedding.length = cfg.dim ∧
    out.doc = assembledDoc a e t ∧ out.taggingWarning = t.isNone ∧
    out.store = upsert store out.doc := by
  cases hd : a.date with
  | none => simp [ingest, hd] at h
  | some dt =>
    cases hl : parseLocation a.location with
    | none => simp [ingest, hd, hl] at h
    | some loc =>
      cases he : e with
      | none => simp [ingest, hd, hl, he] at h
      | some v =>
        by_cases hv : v.length = cfg.dim
        · cases ht : t with
          | none =>
            simp only [ingest, hd, hl, he, ht, if_pos hv] at h
            injection h with h2
            subst h2
            refine ⟨rfl, rfl, rfl, hv, ?_, rfl, rfl⟩
            simp [assembledDoc, hd, hl]
          | some ts =>
            simp only [ingest, hd, hl, he, ht, if_pos hv] at h
            injection h with h2
            subst h2
            refine ⟨rfl, rfl, rfl, hv, ?_, rfl, rfl⟩
            simp [assembledDoc, hd, hl]
        · simp only [ingest, hd, hl, he, if_neg hv] at h
          cases ht : t <;> simp [ht] at h

/-- Every successful similarity query resolves the seed and returns the
truncated ranked candidate list projected to the Article payload. -/
theorem similar_ok_inv (cfg : Config) (store : List Document) (seedUrl : String)
    (fk : FilterKind) (siteValue : Option String) (topK : Nat) (r : List Article)
    (hr : similar cfg store seedUrl fk siteValue topK = Except.ok r) :
    ∃ seed, findDoc store seedUrl = some seed ∧
      r = ((rankedCandidates cfg store seed fk siteValue).take topK).map toView := by
  cases hf : findDoc store seedUrl with
  | none => simp [similar, similarDocs, hf] at hr
  | some seed =>
    simp only [similar, similarDocs, hf] at hr
    injection hr with hr2
    exact ⟨seed, rfl, hr2.symm⟩

/-- Every ranked candidate is a stored Document distinct from the seed, with
a valid embedding, that passes the selected filter. -/
theorem mem_rankedCandidates (cfg : Config) (store : List Document) (seed : Document)
    (fk : FilterKind) (siteValue : Option String) (d : Document)
    (hd : d ∈ rankedCandidates cfg store seed fk siteValue) :
    d ∈ store ∧ d.url ≠ seed.url ∧ d.embedding.length = cfg.dim ∧
      passesFilter cfg seed fk siteValue d = true := by
  rw [rankedCandidates] at hd
  have hd2 := (List.perm_insertionSort (candLe seed) _).mem_iff.mp hd
  rw [List.mem_filter] at hd2
  obtain ⟨hmem, hcond⟩ := hd2
  simp only [Bool.and_eq_true, decide_eq_true_eq] at hcond
  exact ⟨hmem, hcond.1.1, hcond.1.2, hcond.2⟩

end NewsIR

namespace NewsIR

/-- C10: In the InputTags component, every update of the tag list produced by
adding tags, whether through the pending input containing a comma (split on
commas, each chunk trimmed) or through an explicit add on Enter, passes
onChange a list of pairwise-distinct strings in which the existing tags keep
their first-occurrence order (their deduplication is an initial segment of
the new list, and a duplicate-free existing list is kept verbatim), and
clears the pending input afterwards. -/
theorem inputTags_add_invariants (value : List String) (pending : String) :
    (containsComma pending = true →
      (commaUpdate value pending).1 =
          firstDedup (value ++ (splitComma pending).map trimStr) ∧
      (commaUpdate value pending).1.Nodup ∧
      (commaUpdate value pending).2 = "" ∧
      ∃ rest, (commaUpdate value pending).1 = firstDedup value ++ rest) ∧
    (pending ≠ "" →
      (addPendingDataPoint value pending).1 = firstDedup (value ++ [pending]) ∧
      (addPendingDataPoint value pending).1.Nodup ∧
      (addPendingDataPoint value pending).2 = "" ∧
      ∃ rest, (addPendingDataPoint value pending).1 = firstDedup value ++ rest) ∧
    (value.Nodup → firstDedup value = value) := by
  refine ⟨?_, ?_, fun h => firstDedup_eq_self h⟩
  · intro hc
    have h1 : commaUpdate value pending =
        (firstDedup (value ++ (splitComma pending).map trimStr), "") := by
      simp only [commaUpdate, if_pos hc]
    rw [h1]
    exact ⟨rfl, firstDedup_nodup _, rfl, firstDedup_append _ _⟩
  · intro hp
    have h1 : addPendingDataPoint value pending = (firstDedup (value ++ [pending]), "") := by
      simp only [addPendingDataPoint, if_pos hp]
    rw [h1]
    exact ⟨rfl, firstDedup_nodup _, rfl, firstDedup_append _ _⟩

/-- Witness for C10 on a concrete pending input for both update paths. -/
theorem inputTags_add_invariants_witness :
    containsComma "a, b,x" = true ∧
    commaUpdate ["x"] "a, b,x" = (["x", "a", "b"], "") ∧
    (commaUpdate ["x"] "a, b,x").1.Nodup ∧
    addPendingDataPoint ["x"] "y" = (["x", "y"], "") ∧
    (addPendingDataPoint ["x"] "y").2 = "" :=
  ⟨by decide, by decide, ((inputTags_add_invariants ["x"] "a, b,x").1 (by decide)).2.1,
   by decide, ((inputTags_add_invariants ["x"] "y").2.1 (by decide)).2.2.1⟩

/-- C5: when field validation and embedding succeed but the event tagger
fails, ingestion still succeeds: the Document is indexed with an empty tag
set, the tagging warning is recorded in the outcome, and no failure is
surfaced to the caller. -/
theorem ingest_degraded_on_tagger_failure (cfg : Config) (store : List Document)
    (a : RawArticle) (dt : Int) (loc : Location) (v : List Int)
    (hdate : a.date = some dt) (hloc : parseLocation a.location = some loc)
    (hv : v.length = cfg.dim) :
    ingest cfg store a (some v) none =
      Except.ok ⟨upsert store (degradedDoc a dt loc v), degradedDoc a dt loc v, true⟩ ∧
    (degradedDoc a dt loc v).tags = [] ∧
    degradedDoc a dt loc v ∈ upsert store (degradedDoc a dt loc v) := by
  refine ⟨?_, rfl, List.mem_cons_self _ _⟩
  simp only [ingest, hdate, hloc, if_pos hv, degradedDoc]

/-- Witness for C5: the example article with a failing tagger is still
indexed, with empty tags and the warning flag set. -/
theorem ingest_degraded_on_tagger_failure_witness :
    (artEx.date = some 10 ∧ parseLocation artEx.location = some Location.Singapore ∧
      ([1, 0] : List Int).length = cfgEx.dim) ∧
    ingest cfgEx [] artEx (some [1, 0]) none =
      Except.ok ⟨upsert [] (degradedDoc artEx 10 Location.Singapore [1, 0]),
        degradedDoc artEx 10 Location.Singapore [1, 0], true⟩ ∧
    (degradedDoc artEx 10 Location.Singapore [1, 0]).tags = [] :=
  ⟨⟨rfl, by decide, rfl⟩,
   (ingest_degraded_on_tagger_failure cfgEx [] artEx 10 Location.Singapore [1, 0]
      rfl (by decide) rfl).1,
   (ingest_degraded_on_tagger_failure cfgEx [] artEx 10 Location.Singapore [1, 0]
      rfl (by decide) rfl).2.1⟩

/-- C7: ingestion is idempotent per url: after a successful ingestion exactly
one stored Document carries the url, that Document is the ingestion result,
other urls are preserved, re-ingesting the same url succeeds again, and the
re-ingestion fully replaces the record with a Document equal to the second
outcome (last-write-wins, identical content gives an identical Document). -/
theorem ingest_idempotent_per_url (cfg : Config) (store : List Document) (a : RawArticle)
    (e : Option (List Int)) (t : Option (List String)) (out1 : IngestOk)
    (h1 : ingest cfg store a e t = Except.ok out1) :
    (out1.store.map Document.url).count a.url = 1 ∧
    findDoc out1.store a.url = some out1.doc ∧
    (∀ x ∈ store, x.url ≠ a.url → x ∈ out1.store) ∧
    (ingest cfg out1.store a e t).isOk = true ∧
    (∀ out2, ingest cfg out1.store a e t = Except.ok out2 →
      out2.doc = out1.doc ∧ (out2.store.map Document.url).count a.url = 1 ∧
      findDoc out2.store a.url = some out2.doc) := by
  obtain ⟨hd1, hl1, he1, hv1, hdoc1, hw1, hst1⟩ := ingest_ok_shape cfg store a e t out1 h1
  have hurl1 : out1.doc.url = a.url := by rw [hdoc1]; rfl
  refine ⟨?_, ?_, ?_, ?_, ?_⟩
  · rw [hst1, ← hurl1]; exact upsert_url_count store out1.doc
  · rw [hst1, ← hurl1]; exact findDoc_upsert store out1.doc
  · intro x hx hne
    rw [hst1]
    exact mem_upsert_of_ne store out1.doc x hx (by rw [hurl1]; exact hne)
  · cases hd : a.date with
    | none => rw [hd] at hd1; simp at hd1
    | some dt =>
      cases hl : parseLocation a.location with
      | none => rw [hl] at hl1; simp at hl1
      | some loc =>
        cases he : e with
        | none => rw [he] at he1; simp at he1
        | some v =>
          have hv : v.length = cfg.dim := by
            rw [he] at he1
            injection he1 with hv2
            rw [hv2]
            exact hv1
          cases ht : t with
          | none => simp [ingest, hd, hl, he, ht, hv, Except.isOk, Except.toBool]
          | some ts => simp [ingest, hd, hl, he, ht, hv, Except.isOk, Except.toBool]
  · intro out2 h2
    obtain ⟨hd2, hl2, he2, hv2, hdoc2, hw2, hst2⟩ := ingest_ok_shape cfg out1.store a e t out2 h2
    have hurl2 : out2.doc.url = a.url := by rw [hdoc2]; rfl
    refine ⟨by rw [hdoc2, hdoc1], ?_, ?_⟩
    · rw [hst2, ← hurl2]; exact upsert_url_count out1.store out2.doc
    · rw [hst2, ← hurl2]; exact findDoc_upsert out1.store out2.doc

/-- Witness for C7: ingesting the example article into an empty store yields
exactly one record under its url, and re-ingesting succeeds. -/
theorem ingest_idempotent_per_url_witness :
    ingest cfgEx [] artEx (some [1, 0]) (some ["flooding"]) = Except.ok outEx ∧
    (outEx.store.map Document.url).count artEx.url = 1 ∧
    findDoc outEx.store artEx.url = some outEx.doc ∧
    (ingest cfgEx outEx.store artEx (some [1, 0]) (some ["flooding"])).isOk = true :=
  ⟨rfl,
   (ingest_idempotent_per_url cfgEx [] artEx (some [1, 0]) (some ["flooding"]) outEx rfl).1,
   (ingest_idempotent_per_url cfgEx [] artEx (some [1, 0]) (some ["flooding"]) outEx rfl).2.1,
   (ingest_idempotent_per_url cfgEx [] artEx (some [1, 0]) (some ["flooding"]) outEx rfl).2.2.2.1⟩

end NewsIR

namespace NewsIR

/-- C6: ingestion fails with ValidationError exactly on an unparsable date or
a location outside the closed enumeration, fails with EmbeddingServiceError
on an absent embedding response or a non-D-dimensional vector, succeeds
exactly when steps 1 and 2 succeed, in which case the result is the persisted
Document, and a Document without a valid D-dimensional embedding is never
returned by similarity search. -/
theorem ingest_error_exactness (cfg : Config) (store : List Document) (a : RawArticle)
    (e : Option (List Int)) (t : Option (List String)) :
    (∀ s, (parseLocation s).isSome = true ↔
      (s = "Singapore" ∨ s = "Malaysia" ∨ s = "Indonesia")) ∧
    ((a.date = none ∨ parseLocation a.location = none) →
      ingest cfg store a e t = Except.error IngestError.validation) ∧
    (a.date ≠ none → parseLocation a.location ≠ none → e = none →
      ingest cfg store a e t = Except.error IngestError.embeddingService) ∧
    (a.date ≠ none → parseLocation a.location ≠ none →
      ∀ v, e = some v → v.length ≠ cfg.dim →
      ingest cfg store a e t = Except.error IngestError.embeddingService) ∧
    (∀ out, ingest cfg store a e t = Except.ok out →
      findDoc out.store a.url = some out.doc) ∧
    ((ingest cfg store a e t).isOk = true ↔
      (a.date ≠ none ∧ parseLocation a.location ≠ none ∧
        ∃ v, e = some v ∧ v.length = cfg.dim)) ∧
    (∀ seedUrl fk sv k docs, similarDocs cfg store seedUrl fk sv k = Except.ok docs →
      ∀ d ∈ docs, d.embedding.length = cfg.dim) := by
  refine ⟨?_, ?_, ?_, ?_, ?_, ?_, ?_⟩
  · intro s
    unfold parseLocation
    split_ifs with h1 h2 h3
    · simp [h1]
    · simp [h2]
    · simp [h3]
    · simp [h1, h2, h3]
  · intro h
    rcases h with hd | hl
    · simp [ingest, hd]
    · cases hd : a.date with
      | none => simp [ingest, hd]
      | some dt => simp [ingest, hd, hl]
  · intro hd0 hl0 he
    cases hd : a.date with
    | none => exact absurd hd hd0
    | some dt =>
      cases hl : parseLocation a.location with
      | none => exact absurd hl hl0
      | some loc => simp [ingest, hd, hl, he]
  · intro hd0 hl0 v hev hv
    cases hd : a.date with
    | none => exact absurd hd hd0
    | some dt =>
      cases hl : parseLocation a.location with
      | none => exact absurd hl hl0
      | some loc =>
        cases ht : t with
        | none => simp [ingest, hd, hl, hev, hv, ht]
        | some ts => simp [ingest, hd, hl, hev, hv, ht]
  · intro out hout
    obtain ⟨hd, hl, he, hv, hdoc, hw, hst⟩ := ingest_ok_shape cfg store a e t out hout
    have hurl : out.doc.url = a.url := by rw [hdoc]; rfl
    rw [hst, ← hurl]
    exact findDoc_upsert store out.doc
  · cases hd : a.date with
    | none => simp [ingest, hd, Except.isOk, Except.toBool]
    | some dt =>
      cases hl : parseLocation a.location with
      | none => simp [ingest, hd, hl, Except.isOk, Except.toBool]
      | some loc =>
        cases he : e with
        | none => simp [ingest, hd, hl, he, Except.isOk, Except.toBool]
        | some v =>
          by_cases hv : v.length = cfg.dim
          · cases ht : t with
            | none => simp [ingest, hd, hl, he, ht, hv, Except.isOk, Except.toBool]
            | some ts => simp [ingest, hd, hl, he, ht, hv, Except.isOk, Except.toBool]
          · simp [ingest, hd, hl, he, hv, Except.isOk, Except.toBool]
  · intro seedUrl fk sv k docs hdocs d hd
    cases hf : findDoc store seedUrl with
    | none => simp [similarDocs, hf] at hdocs
    | some seed =>
      simp only [similarDocs, hf] at hdocs
      injection hdocs with h2
      rw [← h2] at hd
      exact (mem_rankedCandidates cfg store seed fk sv d
        (List.mem_of_mem_take hd)).2.2.1

/-- Witness for C6: a rejected location, an absent embedding response and a
malformed vector each fail with the specified error on concrete inputs. -/
theorem ingest_error_exactness_witness :
    ingest cfgEx [] ⟨"b1", "t", "c", "en", "France", "s", some 1⟩ none none =
      Except.error IngestError.validation ∧
    ingest cfgEx [] artEx none none = Except.error IngestError.embeddingService ∧
    ingest cfgEx [] artEx (some [1, 2, 3]) none = Except.error IngestError.embeddingService :=
  ⟨(ingest_error_exactness cfgEx [] ⟨"b1", "t", "c", "en", "France", "s", some 1⟩
      none none).2.1 (Or.inr (by decide)),
   (ingest_error_exactness cfgEx [] artEx none none).2.2.1 (by decide) (by decide) rfl,
   (ingest_error_exactness cfgEx [] artEx (some [1, 2, 3]) none).2.2.2.1
      (by decide) (by decide) [1, 2, 3] rfl (by decide)⟩

end NewsIR

namespace NewsIR

/-- C8: queries never conflate empty results with failures: similar fails
with NotFoundError exactly when the seed url is not indexed and never with
another error, top tags fails with ValidationError exactly when the bounds
are inverted or top-N is not positive and never with another error, and in
every other case both queries succeed, in particular on an empty store the
aggregation returns the empty sequence rather than an error. -/
theorem queries_never_conflate (cfg : Config) (store : List Document) (seedUrl : String)
    (fk : FilterKind) (siteValue : Option String) (topK : Nat) (s e n : Int) :
    (similar cfg store seedUrl fk siteValue topK = Except.error QueryError.notFound ↔
      findDoc store seedUrl = none) ∧
    (∀ err, similar cfg store seedUrl fk siteValue topK = Except.error err →
      err = QueryError.notFound) ∧
    (findDoc store seedUrl ≠ none →
      (similar cfg store seedUrl fk siteValue topK).isOk = true) ∧
    (topTags store s e n = Except.error QueryError.validation ↔ (e < s ∨ n ≤ 0)) ∧
    (∀ err, topTags store s e n = Except.error err → err = QueryError.validation) ∧
    (s ≤ e → 0 < n → (topTags store s e n).isOk = true) ∧
    (topTags ([] : List Document) s e n = Except.error QueryError.validation ∨
      topTags ([] : List Document) s e n = Except.ok []) := by
  refine ⟨?_, ?_, ?_, ?_, ?_, ?_, ?_⟩
  · cases hf : findDoc store seedUrl with
    | none => simp [similar, similarDocs, hf]
    | some seed => simp [similar, similarDocs, hf]
  · intro err herr
    cases hf : findDoc store seedUrl with
    | none =>
      simp only [similar, similarDocs, hf] at herr
      injection herr with h2
      exact h2.symm
    | some seed => simp [similar, similarDocs, hf] at herr
  · intro hne
    cases hf : findDoc store seedUrl with
    | none => exact absurd hf hne
    | some seed => simp [similar, similarDocs, hf, Except.isOk, Except.toBool]
  · by_cases hcond : s > e ∨ n ≤ 0
    · rw [topTags, if_pos hcond]
      simpa using hcond
    · rw [topTags, if_neg hcond]
      simp
      omega
  · intro err herr
    by_cases hcond : s > e ∨ n ≤ 0
    · rw [topTags, if_pos hcond] at herr
      injection herr with h2
      exact h2.symm
    · rw [topTags, if_neg hcond] at herr
      simp at herr
  · intro hs hn
    have hcond : ¬(s > e ∨ n ≤ 0) := by omega
    simp [topTags, if_neg hcond, Except.isOk, Except.toBool]
  · by_cases hcond : s > e ∨ n ≤ 0
    · left; rw [topTags, if_pos hcond]
    · right
      rw [topTags, if_neg hcond]
      simp [docsInRange, tagOccurrences]

/-- Witness for C8: a missing seed url yields NotFoundError, an indexed seed
succeeds, inverted bounds yield ValidationError, valid bounds succeed. -/
theorem queries_never_conflate_witness :
    similar cfgEx storeEx "missing" FilterKind.site none 5 =
      Except.error QueryError.notFound ∧
    (similar cfgEx storeEx "a1" FilterKind.site none 5).isOk = true ∧
    topTags storeEx 5 3 10 = Except.error QueryError.validation ∧
    (topTags storeEx 0 30 25).isOk = true :=
  ⟨(queries_never_conflate cfgEx storeEx "missing" FilterKind.site none 5 5 3 10).1.mpr rfl,
   (queries_never_conflate cfgEx storeEx "a1" FilterKind.site none 5 0 30 25).2.2.1 (by decide),
   (queries_never_conflate cfgEx storeEx "missing" FilterKind.site none 5 5 3 10).2.2.2.1.mpr
      (Or.inl (by decide)),
   (queries_never_conflate cfgEx storeEx "a1" FilterKind.site none 5 0 30 25).2.2.2.2.2.1
      (by decide) (by decide)⟩

/-- C4: the seed article is never contained in its own similarity result:
every returned Article has a url different from the seed url. -/
theorem similar_excludes_seed (cfg : Config) (store : List Document) (seedUrl : String)
    (fk : FilterKind) (siteValue : Option String) (topK : Nat) (r : List Article)
    (hr : similar cfg store seedUrl fk siteValue topK = Except.ok r) :
    ∀ art ∈ r, art.url ≠ seedUrl := by
  obtain ⟨seed, hf, hr2⟩ := similar_ok_inv cfg store seedUrl fk siteValue topK r hr
  have hseedUrl : seed.url = seedUrl := by
    unfold findDoc at hf
    have hp := List.find?_some hf
    simpa using hp
  intro art hart
  rw [hr2] at hart
  obtain ⟨d, hd, hartd⟩ := List.mem_map.mp hart
  have hmem := mem_rankedCandidates cfg store seed fk siteValue d (List.mem_of_mem_take hd)
  have hurl : art.url = d.url := by rw [← hartd]; rfl
  rw [hurl, ← hseedUrl]
  exact hmem.2.1

/-- Witness for C4: the single result of the example site query does not
carry the seed url. -/
theorem similar_excludes_seed_witness :
    similar cfgEx storeEx "a1" FilterKind.site none 5 = Except.ok [toView dB] ∧
    (toView dB).url ≠ "a1" :=
  ⟨rfl, similar_excludes_seed cfgEx storeEx "a1" FilterKind.site none 5 [toView dB] rfl
    (toView dB) (List.mem_singleton.mpr rfl)⟩

/-- C2: the filter kinds are exactly site and date, exactly one of them
applies per query, and every returned Article satisfies the selected filter:
under site its site equals the supplied site value or by default the seed
site, under date its date lies within the configured window around the seed
date. -/
theorem similar_filter_correct (cfg : Config) (store : List Document) (seedUrl : String)
    (fk : FilterKind) (siteValue : Option String) (topK : Nat) (seed : Document)
    (r : List Article)
    (hseed : findDoc store seedUrl = some seed)
    (hr : similar cfg store seedUrl fk siteValue topK = Except.ok r) :
    (∀ g : FilterKind, g = FilterKind.site ∨ g = FilterKind.date) ∧
    (fk = FilterKind.site → ∀ art ∈ r, art.site = siteValue.getD seed.site) ∧
    (fk = FilterKind.date → ∀ art ∈ r,
      seed.date - (cfg.window : Int) ≤ art.date ∧
      art.date ≤ seed.date + (cfg.window : Int)) := by
  obtain ⟨seed2, hf2, hr2⟩ := similar_ok_inv cfg store seedUrl fk siteValue topK r hr
  rw [hseed] at hf2
  injection hf2 with hseedEq
  subst hseedEq
  refine ⟨fun g => by cases g <;> simp, ?_, ?_⟩
  · rintro rfl art hart
    rw [hr2] at hart
    obtain ⟨d, hd, hartd⟩ := List.mem_map.mp hart
    have hmem := mem_rankedCandidates cfg store seed FilterKind.site siteValue d
      (List.mem_of_mem_take hd)
    have hp := hmem.2.2.2
    simp only [passesFilter, decide_eq_true_eq] at hp
    have hsite : art.site = d.site := by rw [← hartd]; rfl
    rw [hsite]
    exact hp
  · rintro rfl art hart
    rw [hr2] at hart
    obtain ⟨d, hd, hartd⟩ := List.mem_map.mp hart
    have hmem := mem_rankedCandidates cfg store seed FilterKind.date siteValue d
      (List.mem_of_mem_take hd)
    have hp := hmem.2.2.2
    simp only [passesFilter, Bool.and_eq_true, decide_eq_true_eq] at hp
    have hdate : art.date = d.date := by rw [← hartd]; rfl
    rw [hdate]
    exact hp

/-- Witness for C2: the example site query returns only Documents published
by the seed site. -/
theorem similar_filter_correct_witness :
    (findDoc storeEx "a1" = some dA ∧
      similar cfgEx storeEx "a1" FilterKind.site none 5 = Except.ok [toView dB]) ∧
    (toView dB).site = Option.getD none dA.site :=
  ⟨⟨rfl, rfl⟩,
   (similar_filter_correct cfgEx storeEx "a1" FilterKind.site none 5 dA [toView dB]
      rfl rfl).2.1 rfl (toView dB) (List.mem_singleton.mpr rfl)⟩

end NewsIR

namespace NewsIR

/-- C9: every Article returned by a similarity query is the projection of a
stored Document to exactly the seven public fields (url, title, content,
language, location, site, date), and the projection does not depend on the
embedding, so no embedding vector reaches the response payload. -/
theorem similar_payload_fields (cfg : Config) (store : List Document) (seedUrl : String)
    (fk : FilterKind) (siteValue : Option String) (topK : Nat) (r : List Article)
    (hr : similar cfg store seedUrl fk siteValue topK = Except.ok r) :
    (∀ art ∈ r, ∃ d, d ∈ store ∧ art = toView d ∧
      art = Article.mk d.url d.title d.content d.language d.location d.site d.date) ∧
    (∀ d v, toView { d with embedding := v } = toView d) ∧
    (∀ d, toView d =
      Article.mk d.url d.title d.content d.language d.location d.site d.date) := by
  refine ⟨?_, fun d v => rfl, fun d => rfl⟩
  intro art hart
  obtain ⟨seed, hf, hr2⟩ := similar_ok_inv cfg store seedUrl fk siteValue topK r hr
  rw [hr2] at hart
  obtain ⟨d, hd, hartd⟩ := List.mem_map.mp hart
  exact ⟨d, (mem_rankedCandidates cfg store seed fk siteValue d
    (List.mem_of_mem_take hd)).1, hartd.symm, hartd.symm⟩

/-- Witness for C9: the example result is the embedding-free projection and
the projection ignores a changed embedding. -/
theorem similar_payload_fields_witness :
    similar cfgEx storeEx "a1" FilterKind.site none 5 = Except.ok [toView dB] ∧
    toView { dB with embedding := [9, 9] } = toView dB ∧
    toView dB = Article.mk dB.url dB.title dB.content dB.language dB.location dB.site dB.date :=
  ⟨rfl,
   (similar_payload_fields cfgEx storeEx "a1" FilterKind.site none 5 [toView dB]
      rfl).2.1 dB [9, 9],
   (similar_payload_fields cfgEx storeEx "a1" FilterKind.site none 5 [toView dB]
      rfl).2.2 dB⟩

/-- C3: the Document-level similarity result is sorted by the ranking order
(descending similarity to the seed, ties broken by descending date, then url
lexical order), the public result is its embedding-free projection, and the
query is deterministic: the same seed, filter and top-K against the same
store yield the same sequence. -/
theorem similar_ranking_deterministic (cfg : Config) (store : List Document)
    (seedUrl : String) (fk : FilterKind) (siteValue : Option String) (topK : Nat)
    (seed : Document) (docs : List Document)
    (hseed : findDoc store seedUrl = some seed)
    (hdocs : similarDocs cfg store seedUrl fk siteValue topK = Except.ok docs) :
    List.Sorted (candLe seed) docs ∧
    similar cfg store seedUrl fk siteValue topK = Except.ok (docs.map toView) ∧
    (∀ docs2, similarDocs cfg store seedUrl fk siteValue topK = Except.ok docs2 →
      docs2 = docs) := by
  simp only [similarDocs, hseed] at hdocs
  injection hdocs with h2
  subst h2
  refine ⟨?_, ?_, ?_⟩
  · have hsorted : List.Sorted (candLe seed) (rankedCandidates cfg store seed fk siteValue) := by
      rw [rankedCandidates]
      exact List.sorted_insertionSort (candLe seed) _
    exact List.Pairwise.sublist (List.take_sublist _ _) hsorted
  · simp [similar, similarDocs, hseed]
  · intro docs2 hdocs2
    simp only [similarDocs, hseed] at hdocs2
    injection hdocs2 with h3
    exact h3.symm

/-- Witness for C3: the example date-window query is sorted by the ranking
order and projects to the public payload. -/
theorem similar_ranking_deterministic_witness :
    (findDoc storeEx "a1" = some dA ∧
      similarDocs cfgEx storeEx "a1" FilterKind.date none 5 = Except.ok [dB, dC]) ∧
    List.Sorted (candLe dA) [dB, dC] ∧
    similar cfgEx storeEx "a1" FilterKind.date none 5 = Except.ok ([dB, dC].map toView) :=
  ⟨⟨rfl, rfl⟩,
   (similar_ranking_deterministic cfgEx storeEx "a1" FilterKind.date none 5 dA [dB, dC]
      rfl rfl).1,
   (similar_ranking_deterministic cfgEx storeEx "a1" FilterKind.date none 5 dA [dB, dC]
      rfl rfl).2.1⟩

/-- C1: for valid bounds and positive top-N, every returned TagCount pair
counts exactly the Documents in the inclusive date range whose tag set
contains the tag (one occurrence per Document), the sequence is sorted by
descending count with ties broken by lexical order of the tag, and its
length is at most top-N. -/
theorem topTags_correct (store : List Document) (s e n : Int) (r : List TagCount)
    (hs : s ≤ e) (hn : 0 < n)
    (hr : topTags store s e n = Except.ok r) :
    (∀ tc ∈ r, tc.count =
      ((docsInRange store s e).filter (fun d => decide (tc.tag ∈ d.tags))).length) ∧
    List.Sorted tagRel r ∧ (r.length : Int) ≤ n := by
  have hcond : ¬(s > e ∨ n ≤ 0) := by omega
  simp only [topTags, if_neg hcond] at hr
  injection hr with h2
  subst h2
  refine ⟨?_, ?_, ?_⟩
  · intro tc htc
    have htc2 := (List.perm_insertionSort tagRel _).mem_iff.mp (List.mem_of_mem_take htc)
    obtain ⟨t, ht, rfl⟩ := List.mem_map.mp htc2
    exact count_tagOccurrences (docsInRange store s e) t
  · exact List.Pairwise.sublist (List.take_sublist _ _)
      (List.sorted_insertionSort tagRel _)
  · have hlen := List.length_take_le n.toNat
      (List.insertionSort tagRel ((tagOccurrences (docsInRange store s e)).dedup.map
        (fun t => TagCount.mk t ((tagOccurrences (docsInRange store s e)).count t))))
    omega

/-- Witness for C1: aggregation over the example store returns the expected
ordered counts, sorted with the lexical tie-break and within the length
bound. -/
theorem topTags_correct_witness :
    ((0 : Int) ≤ 30 ∧ (0 : Int) < 25 ∧ topTags storeEx 0 30 25 = Except.ok rEx) ∧
    List.Sorted tagRel rEx ∧ ((rEx.length : Int) ≤ 25) :=
  ⟨⟨by decide, by decide, rfl⟩,
   (topTags_correct storeEx 0 30 25 rEx (by decide) (by decide) rfl).2.1,
   (topTags_correct storeEx 0 30 25 rEx (by decide) (by decide) rfl).2.2⟩

end NewsIR
